import Mathlib

/-!
Verification of the `edgeos` configuration core of the blacklist repository.

The Go sources embedded here are `src/internal/edgeos/config.go` (the tree
model, the `ReadCfg` line scanner, the object/view factory) and the unnamed
source file holding the `list`/`entry` set (`keyExists`, `subKeyExists`,
`updateEntry`).  Machine-level aspects are modelled as follows: Go maps become
association lists with overwrite-on-insert, Go `nil` pointers become `Option`,
and a Go runtime panic (nil dereference or out-of-range index) is modelled by
an `Option`-valued function returning `none`.  Pointer aliasing between a view
and the tree (Go views share `*object` pointers with the tree) is replaced by
value copies; no property stated below depends on that sharing.
-/

/-! ## Constants (config.go lines 40-70) -/

def domains : String := "domains"
def hosts : String := "hosts"
def rootNode : String := "blacklist"
def src : String := "source"
def files : String := "file"
def urls : String := "url"
def blackhole : String := "dns-redirect-ip"
def notknown : String := "unknown"
def preNoun : String := "pre-configured"

def ExcDomns : String := "domn-excludes"

def ExcHosts : String := "host-excludes"

def ExcRoots : String := "root-excludes"

def PreDomns : String := preNoun ++ "-domain"

def PreHosts : String := preNoun ++ "-host"

/-- Modelled from the spec: the closed enumeration of source/object type tags
(`ntype` lives in a repository file that is not under `src/`; the spec lists
the tags file, url, preconfigured-domain, preconfigured-host plus the
node-level tags used by the factory, with an unknown default). -/
inductive ntype where
  | unknown
  | domn
  | excDomn
  | excHost
  | excRoot
  | host
  | preDomn
  | preHost
  | root
deriving DecidableEq

/-- Modelled from the spec: the string-to-tag direction of the repository's
`getType` helper (not under `src/`): node and label strings map to their type
tags, anything else to the unknown tag. -/
def getTypeStr (s : String) : ntype :=
  if s = domains then .domn
  else if s = hosts then .host
  else if s = rootNode then .root
  else if s = ExcDomns then .excDomn
  else if s = ExcHosts then .excHost
  else if s = ExcRoots then .excRoot
  else if s = PreDomns then .preDomn
  else if s = PreHosts then .preHost
  else .unknown

/-- Modelled from the spec: the tag-to-string direction of the repository's
`getType` helper (not under `src/`). -/
def getTypeOfN (n : ntype) : String :=
  match n with
  | .domn => domains
  | .host => hosts
  | .root => rootNode
  | .excDomn => ExcDomns
  | .excHost => ExcHosts
  | .excRoot => ExcRoots
  | .preDomn => PreDomns
  | .preHost => PreHosts
  | .unknown => notknown

/-! ## The object record (node records, source records and view aggregates
share one Go struct `object`; its `Objects` member makes it recursive, and a
Go `[]*object` slice may hold nil pointers, hence `List (Option object)`). -/

inductive object : Type where
  | mk (desc : String) (disabled : Bool) (exc : List String) (file : String)
       (inc : List String) (ip : String) (ltype : String) (name : String)
       (nType : ntype) (x : List (Option object)) (pfx : String) (url : String)

def object.desc : object → String | .mk d _ _ _ _ _ _ _ _ _ _ _ => d

def object.disabled : object → Bool | .mk _ d _ _ _ _ _ _ _ _ _ _ => d

def object.exc : object → List String | .mk _ _ e _ _ _ _ _ _ _ _ _ => e

def object.file : object → String | .mk _ _ _ f _ _ _ _ _ _ _ _ => f

def object.inc : object → List String | .mk _ _ _ _ i _ _ _ _ _ _ _ => i

def object.ip : object → String | .mk _ _ _ _ _ i _ _ _ _ _ _ => i

def object.ltype : object → String | .mk _ _ _ _ _ _ l _ _ _ _ _ => l

def object.name : object → String | .mk _ _ _ _ _ _ _ n _ _ _ _ => n

def object.nType : object → ntype | .mk _ _ _ _ _ _ _ _ n _ _ _ => n

def object.x : object → List (Option object) | .mk _ _ _ _ _ _ _ _ _ x _ _ => x

def object.pfx : object → String | .mk _ _ _ _ _ _ _ _ _ _ p _ => p

def object.url : object → String | .mk _ _ _ _ _ _ _ _ _ _ _ u => u

def object.withDesc (o : object) (v : String) : object :=
  match o with | .mk _ d e f i ip l n nt x p u => .mk v d e f i ip l n nt x p u

def object.withDisabled (o : object) (v : Bool) : object :=
  match o with | .mk ds _ e f i ip l n nt x p u => .mk ds v e f i ip l n nt x p u

def object.withExc (o : object) (v : List String) : object :=
  match o with | .mk ds d _ f i ip l n nt x p u => .mk ds d v f i ip l n nt x p u

def object.withFile (o : object) (v : String) : object :=
  match o with | .mk ds d e _ i ip l n nt x p u => .mk ds d e v i ip l n nt x p u

def object.withInc (o : object) (v : List String) : object :=
  match o with | .mk ds d e f _ ip l n nt x p u => .mk ds d e f v ip l n nt x p u

def object.withIp (o : object) (v : String) : object :=
  match o with | .mk ds d e f i _ l n nt x p u => .mk ds d e f i v l n nt x p u

def object.withLtype (o : object) (v : String) : object :=
  match o with | .mk ds d e f i ip _ n nt x p u => .mk ds d e f i ip v n nt x p u

def object.withName (o : object) (v : String) : object :=
  match o with | .mk ds d e f i ip l _ nt x p u => .mk ds d e f i ip l v nt x p u

def object.withNType (o : object) (v : ntype) : object :=
  match o with | .mk ds d e f i ip l n _ x p u => .mk ds d e f i ip l n v x p u

def object.withX (o : object) (v : List (Option object)) : object :=
  match o with | .mk ds d e f i ip l n nt _ p u => .mk ds d e f i ip l n nt v p u

def object.withPfx (o : object) (v : String) : object :=
  match o with | .mk ds d e f i ip l n nt x _ u => .mk ds d e f i ip l n nt x v u

def object.withUrl (o : object) (v : String) : object :=
  match o with | .mk ds d e f i ip l n nt x p _ => .mk ds d e f i ip l n nt x p v

/-- Modelled from the spec: `newObject` (not under `src/`) returns a node
record with all scalar attributes at their zero values and empty collections
(spec section 3: Node defaults). -/
def newObject : object :=
  .mk "" false [] "" [] "" "" "" .unknown [] "" ""

/-- `Objects` from the repository: a collection of (possibly nil) object
pointers; the embedded `*Parms` is carried by `Config` instead. -/
structure Objects where
  x : List (Option object)

/-- The fields of the repository's `Parms` settings bag that the embedded
code reads (`Nodes` and `Ltypes`). -/
structure Parms where
  Nodes : List String := []
  Ltypes : List String := []

/-- `tree` (config.go line 20): a map from node name to a node record,
modelled as an association list with overwrite-on-insert. -/
def tree : Type := List (String × object)

/-- Go map read `b[node]`: the first binding of the key, `none` when absent
(a Go nil pointer). -/
def treeLookup : tree → String → Option object
  | [], _ => none
  | (k, v) :: rest, key => if k == key then some v else treeLookup rest key

/-- Go map write `b[node] = v`: overwrite the binding if present, else add it. -/
def treeInsert : tree → String → object → tree
  | [], key, v => [(key, v)]
  | (k, w) :: rest, key, v =>
      if k == key then (key, v) :: rest else (k, w) :: treeInsert rest key v

def treeKeys (t : tree) : List String := t.map Prod.fst

/-- `Config` (config.go lines 35-38). -/
structure Config where
  Parms : Parms
  tree : tree

/-- `getIP` (config.go lines 450-458): a node's resolved blackhole ip; an
empty node ip falls back to the root node's ip.  `none` models the Go nil
dereference that occurs when the looked-up record is absent. -/
def getIP (b : tree) (node : String) : Option String :=
  match treeLookup b node with
  | none => none
  | some nob =>
      if nob.ip = "" then (treeLookup b rootNode).map object.ip
      else some nob.ip

/-- The element loop of `validate` (config.go lines 460-467): each source
object with an empty ip gets the node's resolved ip filled in.  A nil element
or an unresolvable ip is a Go panic, modelled as `none`. -/
def validateX (b : tree) (node : String) : List (Option object) → Option (List (Option object))
  | [] => some []
  | none :: _ => none
  | some ob :: rest =>
      if ob.ip = "" then
        match getIP b node with
        | none => none
        | some ipv => (validateX b node rest).map (fun xs => some (ob.withIp ipv) :: xs)
      else (validateX b node rest).map (fun xs => some ob :: xs)

/-- `validate` (config.go lines 460-467). -/
def validate (b : tree) (node : String) : Option Objects :=
  match treeLookup b node with
  | none => none
  | some nob =>
      match validateX b node nob.x with
      | none => none
      | some xs => some ⟨xs⟩

/-! ## The Entry Set (`list`/`entry`, unnamed source file)

The Go `entry` is `map[string]int`; we model it as an association list with
overwrite-on-insert.  The `sync.RWMutex` of `list` guards concurrent access
only and has no sequential semantics, so it is dropped here. -/

def entryInsert : List (String × Int) → String → Int → List (String × Int)
  | [], k, v => [(k, v)]
  | (k', v') :: rest, k, v =>
      if k' == k then (k, v) :: rest else (k', v') :: entryInsert rest k v

structure list where
  entry : List (String × Int)

/-- `keyExists` (unnamed source file lines 26-31). -/
def list.keyExists (l : list) (k : String) : Bool :=
  l.entry.any (fun p => p.fst == k)

/-- `set` (unnamed source file lines 46-50). -/
def list.set (l : list) (k : String) (v : Int) : list :=
  ⟨entryInsert l.entry k v⟩

/-- `mergeList` (unnamed source file lines 34-43): copy every binding of `b`
into `a`. -/
def mergeList (a b : list) : list :=
  ⟨b.entry.foldl (fun e p => entryInsert e p.fst p.snd) a.entry⟩

/-- `updateEntry` (unnamed source file lines 73-79): build an entry set from
a string array, every key bound to 0. -/
def updateEntry (data : List String) : list :=
  ⟨data.foldl (fun e k => entryInsert e k 0) []⟩

/-- Splitting a string at the dots, as Go's `strings.Split(s, ".")` does
(used below to model `getSubdomains`). -/
def splitDotsAux : List Char → List Char → List String
  | [], acc => [String.mk acc.reverse]
  | c :: cs, acc =>
      if c = '.' then String.mk acc.reverse :: splitDotsAux cs []
      else splitDotsAux cs (c :: acc)

def splitDots (s : String) : List String :=
  splitDotsAux s.toList []

def joinDots : List String → String
  | [] => ""
  | [s] => s
  | s :: rest => s ++ "." ++ joinDots rest

/-- Modelled from the spec: `getSubdomains` (not under `src/`) returns, as an
entry set, the dot-delimited parent domain suffixes of the key — for
`"a.b.example.com"` the suffixes `"b.example.com"` and `"example.com"`, each
keeping at least two labels; the full key itself is checked separately by
`subKeyExists`. -/
def getSubdomains (k : String) : list :=
  let keys := splitDots k
  updateEntry ((List.range keys.length).filterMap (fun i =>
    if 1 ≤ i ∧ i + 2 ≤ keys.length then some (joinDots (keys.drop i)) else none))

/-- `subKeyExists` (unnamed source file lines 62-70): true when any parent
domain suffix of the key, or the key itself, is a member. -/
def list.subKeyExists (l : list) (k : String) : Bool :=
  let keys := getSubdomains k
  keys.entry.any (fun p => l.keyExists p.fst) || l.keyExists k

/-! ## The factory (config.go) -/

/-- Lexicographic comparison of char lists by code point, matching Go's
string ordering for the ASCII node names involved. -/
def charListLe : List Char → List Char → Bool
  | [], _ => true
  | _ :: _, [] => false
  | c :: cs, d :: ds =>
      if c.val < d.val then true
      else if d.val < c.val then false
      else charListLe cs ds

def strLe (s t : String) : Bool :=
  charListLe s.toList t.toList

/-- Insertion sort on strings, standing in for Go's `sort.Strings` inside
`Config.Nodes` (only membership of the result is used by the theorems). -/
def insertSorted (s : String) : List String → List String
  | [] => [s]
  | t :: rest => if strLe s t then s :: t :: rest else t :: insertSorted s rest

def sortStrings : List String → List String
  | [] => []
  | s :: rest => insertSorted s (sortStrings rest)

/-- `Nodes` (config.go lines 262-270): the sorted node names of the tree. -/
def Config.Nodes (c : Config) : List String :=
  sortStrings (treeKeys c.tree)

/-- The nil-argument loop of `excludes` (config.go lines 181-186): flatten the
exclude lists of all nodes, in sorted key order.  The lookup of a key of the
tree always succeeds; the `none` branch is unreachable and yields the
accumulator unchanged. -/
def excAllAcc (c : Config) : List String → List String
  | [] => []
  | k :: rest =>
      match treeLookup c.tree k with
      | some nob => (if nob.exc.length ≠ 0 then nob.exc else []) ++ excAllAcc c rest
      | none => excAllAcc c rest

/-- The explicit-scope loop of `excludes` (config.go lines 187-191); a named
scope absent from the tree is a Go nil dereference, modelled as `none`. -/
def excAcc (c : Config) : List String → Option (List String)
  | [] => some []
  | nd :: rest =>
      match treeLookup c.tree nd with
      | none => none
      | some nob => (excAcc c rest).map (fun xs => nob.exc ++ xs)

/-- `excludes` (config.go lines 177-193): the entry set of the exclude lists,
across all nodes when no scope is given, else across the given scopes. -/
def Config.excludes (c : Config) (nodes : List String) : Option list :=
  match nodes with
  | [] => some (updateEntry (excAllAcc c c.Nodes))
  | _ :: _ => (excAcc c nodes).map updateEntry

/-- `addExc` (config.go lines 72-97): the one-aggregate exclusion view for a
scope; its `exc` field is the scope node's own exclude list and its ip the
resolved node ip. -/
def Config.addExc (c : Config) (node : String) : Option Objects :=
  let lt :=
    if node = domains then ExcDomns
    else if node = hosts then ExcHosts
    else if node = rootNode then ExcRoots
    else ""
  match treeLookup c.tree node with
  | none => none
  | some nob =>
      match getIP c.tree node with
      | none => none
      | some ipv =>
          some ⟨[some (.mk (lt ++ " exclusions") false nob.exc "" [] ipv lt lt
            (getTypeStr lt) [] "" "")]⟩

/-- `addInc` (config.go lines 99-127): the aggregate inclusion object for a
scope, a Go nil pointer (`some none`) when the node's include list is empty;
the outer `none` models the nil dereference on an absent node or an
unresolvable ip. -/
def Config.addInc (c : Config) (node : String) : Option (Option object) :=
  match treeLookup c.tree node with
  | none => none
  | some nob =>
      let inc := nob.inc
      if 0 < inc.length then
        let lt :=
          if node = domains then getTypeOfN .preDomn
          else if node = hosts then getTypeOfN .preHost
          else ""
        let n : ntype :=
          if node = domains then getTypeStr (getTypeOfN .preDomn)
          else if node = hosts then getTypeStr (getTypeOfN .preHost)
          else .unknown
        match getIP c.tree node with
        | none => none
        | some ipv =>
            some (some (.mk (lt ++ " blacklist content") false [] "" inc ipv lt
              ("includes.[" ++ toString inc.length ++ "]") n [] "" ""))
      else some none

/-- The default branch of `GetAll` (config.go lines 235-241): keep the source
objects of the node whose `ltype` equals the requested label.  Reading the
`ltype` of a nil element is a Go panic, modelled as `none`. -/
def filterLtype : List (Option object) → String → Option (List (Option object))
  | [], _ => some []
  | none :: _, _ => none
  | some ob :: rest, lt =>
      (filterLtype rest lt).map (fun xs =>
        if ob.ltype == lt then some ob :: xs else xs)

/-- The inner label loop of `GetAll` (config.go lines 222-243) for one node,
threading the `newDomns`/`newHosts` once-only flags. -/
def getAllLts (c : Config) (node : String) :
    List String → Bool → Bool → Option (List (Option object) × Bool × Bool)
  | [], newD, newH => some ([], newD, newH)
  | lt :: rest, newD, newH =>
      if lt = PreDomns then
        if newD ∧ node = domains then
          match c.addInc node with
          | none => none
          | some ob? =>
              (getAllLts c node rest false newH).map
                (fun r => (ob? :: r.fst, r.snd))
        else getAllLts c node rest newD newH
      else if lt = PreHosts then
        if newH ∧ node = hosts then
          match c.addInc node with
          | none => none
          | some ob? =>
              (getAllLts c node rest newD false).map
                (fun r => (ob? :: r.fst, r.snd))
        else getAllLts c node rest newD newH
      else
        match validate c.tree node with
        | none => none
        | some objs =>
            match filterLtype objs.x lt with
            | none => none
            | some kept =>
                (getAllLts c node rest newD newH).map
                  (fun r => (kept ++ r.fst, r.snd))

/-- The node loop of `GetAll` (config.go lines 218-245).  The empty label
list is Go's nil variadic case, whose body `addObj` (not under `src/`) is
modelled from the spec: it appends the node's lazily-resolved source list. -/
def getAllNodes (c : Config) (lts : List String) :
    List String → Bool → Bool → Option (List (Option object))
  | [], _, _ => some []
  | nd :: rest, newD, newH =>
      match lts with
      | [] =>
          match validate c.tree nd with
          | none => none
          | some objs =>
              (getAllNodes c lts rest newD newH).map (fun ys => objs.x ++ ys)
      | _ :: _ =>
          match getAllLts c nd lts newD newH with
          | none => none
          | some (xs, d, h) =>
              (getAllNodes c lts rest d h).map (fun ys => xs ++ ys)

/-- `GetAll` (config.go lines 210-247). -/
def Config.GetAll (c : Config) (lts : List String) : Option Objects :=
  (getAllNodes c lts c.Parms.Nodes true true).map (fun xs => ⟨xs⟩)

/-! ## The line scanner `ReadCfg` (config.go lines 272-360)

The `regx` package that classifies lines is a repository package that is not
under `src/`; the classification is therefore modelled from the spec's
line-category table (spec section 4.1): each trimmed line falls into exactly
one category, and the categories are pairwise disjoint, so the Go switch's
first-match-wins order collapses to a plain match. -/

/-- Modelled from the spec: the line categories of the recognizer.
`mlti` is `exclude <v>`/`include <v>`, `node` is `<identifier> {`, `leaf` is
`<kind> <name> {`, `dsbl` is `disabled <bool>`, `ipbh` is a bare IP literal,
`name` is `<key> <value>`, `cmnt` covers comment/blank/other non-semantic
lines, `rbrc` is a close brace. -/
inductive Line where
  | mlti (isExclude : Bool) (val : String)
  | node (nm : String)
  | leaf (kind nm : String)
  | dsbl (val : String)
  | ipbh (ip : String)
  | name (key val : String)
  | cmnt
  | rbrc

/-- Modelled from the spec: `strToBool` (not under `src/`) reads the
disabled-flag value. -/
def strToBool (s : String) : Bool :=
  s.toLower == "true"

/-- The scanner state of `ReadCfg`: the current node name `tnode`, the leaf
name last seen, the context stack `nodes` (innermost last), the tree built so
far, and the pending source object `o` (`none` before any source leaf has
been opened, as the Go pointer starts nil). -/
structure ParseState where
  tnode : String
  leaf : String
  nodes : List String
  tree : tree
  o : Option object

/-- One line of the `ReadCfg` scan loop (config.go lines 284-353).  `none`
models a Go runtime panic: dereferencing `c.tree[tnode]` when the binding is
absent, indexing `nodes[len(nodes)-1]` on an empty stack, or dereferencing
the nil pending source `o`. -/
def step (s : ParseState) (l : Line) : Option ParseState :=
  match l with
  | .mlti isExclude val =>
      match treeLookup s.tree s.tnode with
      | none => none
      | some nob =>
          let nob1 := if isExclude then nob.withExc (nob.exc ++ [val])
                      else nob.withInc (nob.inc ++ [val])
          some { s with tree := treeInsert s.tree s.tnode nob1 }
  | .node nm =>
      some { s with tnode := nm, nodes := s.nodes ++ [nm],
                    tree := treeInsert s.tree nm newObject }
  | .leaf kind nm =>
      let s1 := { s with leaf := nm, nodes := s.nodes ++ [kind] }
      if kind == src then
        some { s1 with o := some ((newObject.withName nm).withNType (getTypeStr s.tnode)) }
      else some s1
  | .dsbl val =>
      match treeLookup s.tree s.tnode with
      | none => none
      | some nob =>
          let nob1 := nob.withDisabled (strToBool val)
          some { s with tree := treeInsert s.tree s.tnode nob1 }
  | .ipbh v =>
      match s.nodes.getLast? with
      | none => none
      | some top =>
          if top == src then some s
          else
            match treeLookup s.tree s.tnode with
            | none => none
            | some nob =>
                let nob1 := nob.withIp v
                some { s with tree := treeInsert s.tree s.tnode nob1 }
  | .name key val =>
      if key == "description" then
        match s.o with
        | none => none
        | some ob => some { s with o := some (ob.withDesc val) }
      else if key == blackhole then
        match s.o with
        | none => none
        | some ob => some { s with o := some (ob.withIp val) }
      else if key == files then
        match s.o with
        | none => none
        | some ob =>
            let ob1 := (ob.withFile val).withLtype key
            match treeLookup s.tree s.tnode with
            | none => none
            | some nob =>
                let nob1 := nob.withX (nob.x ++ [some ob1])
                some { s with o := some ob1, tree := treeInsert s.tree s.tnode nob1 }
      else if key == "prefix" then
        match s.o with
        | none => none
        | some ob => some { s with o := some (ob.withPfx val) }
      else if key == urls then
        match s.o with
        | none => none
        | some ob =>
            let ob1 := (ob.withUrl val).withLtype key
            match treeLookup s.tree s.tnode with
            | none => none
            | some nob =>
                let nob1 := nob.withX (nob.x ++ [some ob1])
                some { s with o := some ob1, tree := treeInsert s.tree s.tnode nob1 }
      else some s
  | .cmnt => some s
  | .rbrc =>
      if 1 < s.nodes.length then
        let ns := s.nodes.dropLast
        some { s with nodes := ns, tnode := ns.getLastD "" }
      else some s

/-- The scan loop over the whole line sequence. -/
def scan : ParseState → List Line → Option ParseState
  | s, [] => some s
  | s, l :: ls =>
      match step s l with
      | none => none
      | some s1 => scan s1 ls

/-- The initial scanner state over the empty target tree (spec section 4.1:
the parser consumes a line source and a target empty tree). -/
def initState : ParseState :=
  ⟨"", "", [], [], none⟩

def emptyMsg : String := "Configuration data is empty, cannot continue"

/-- `ReadCfg` (config.go lines 272-360): scan all lines, then fail with the
empty-configuration error if the tree holds zero nodes.  `none` models a scan
panic; `some (Except.error _)` the returned error; `some (Except.ok t)` a
successful parse of tree `t`. -/
def ReadCfg (lines : List Line) : Option (Except String tree) :=
  (scan initState lines).map (fun st =>
    if st.tree.isEmpty then Except.error emptyMsg else Except.ok st.tree)

/-! ## Basic lemmas about the embedding -/

@[simp] theorem object.ip_withIp (o : object) (v : String) : (o.withIp v).ip = v := by
  cases o; rfl

@[simp] theorem object.exc_withIp (o : object) (v : String) : (o.withIp v).exc = o.exc := by
  cases o; rfl

@[simp] theorem object.inc_withIp (o : object) (v : String) : (o.withIp v).inc = o.inc := by
  cases o; rfl

@[simp] theorem object.name_withIp (o : object) (v : String) : (o.withIp v).name = o.name := by
  cases o; rfl

@[simp] theorem object.ltype_withIp (o : object) (v : String) : (o.withIp v).ltype = o.ltype := by
  cases o; rfl

@[simp] theorem object.nType_withIp (o : object) (v : ntype) : (o.withNType v).nType = v := by
  cases o; rfl

@[simp] theorem treeLookup_insert_self (t : tree) (k : String) (v : object) :
    treeLookup (treeInsert t k v) k = some v := by
  induction t with
  | nil => simp [treeInsert, treeLookup]
  | cons p rest ih =>
      obtain ⟨k', w⟩ := p
      by_cases h : k' = k
      · simp [treeInsert, treeLookup, h]
      · simp [treeInsert, treeLookup, h, ih]

theorem treeLookup_insert_ne (t : tree) (k k' : String) (v : object) (h : k' ≠ k) :
    treeLookup (treeInsert t k v) k' = treeLookup t k' := by
  induction t with
  | nil => simp [treeInsert, treeLookup, Ne.symm h]
  | cons p rest ih =>
      obtain ⟨k0, w⟩ := p
      by_cases h0 : k0 = k
      · subst h0
        simp [treeInsert, treeLookup, Ne.symm h, h]
      · simp only [treeInsert, beq_iff_eq, h0, if_false]
        by_cases h1 : k0 = k'
        · simp [treeLookup, h1]
        · simp [treeLookup, h1, ih]

theorem treeInsert_ne_nil (t : tree) (k : String) (v : object) :
    treeInsert t k v ≠ [] := by
  cases t with
  | nil => simp [treeInsert]
  | cons p rest =>
      obtain ⟨k', w⟩ := p
      by_cases h : k' = k <;> simp [treeInsert, h]

theorem treeLookup_isSome_insert (t : tree) (k k' : String) (v : object)
    (h : (treeLookup t k').isSome = true) :
    (treeLookup (treeInsert t k v) k').isSome = true := by
  by_cases hk : k' = k
  · subst hk; simp
  · rwa [treeLookup_insert_ne t k k' v hk]

/-! ## C2: IP inheritance -/

/-- C2: for every tree containing the root node "blacklist" and a node N, the
resolved ip of N (`getIP`) equals N's own ip when that is non-empty, equals
the root's ip when N's ip is empty, and equals the empty string when both are
empty. -/
theorem getIP_inheritance (t : tree) (n : String) (rob nob : object)
    (hr : treeLookup t rootNode = some rob) (hn : treeLookup t n = some nob) :
    (nob.ip ≠ "" → getIP t n = some nob.ip) ∧
    (nob.ip = "" → getIP t n = some rob.ip) ∧
    (nob.ip = "" → rob.ip = "" → getIP t n = some "") := by
  refine ⟨?_, ?_, ?_⟩
  · intro h
    unfold getIP
    rw [hn]
    simp [h]
  · intro h
    unfold getIP
    rw [hn]
    simp [h, hr]
  · intro h1 h2
    unfold getIP
    rw [hn]
    simp [h1, hr, h2]

theorem getIP_inheritance_witness :
    getIP [(rootNode, newObject.withIp "0.0.0.0"), ("domains", newObject)] "domains" =
      some (newObject.withIp "0.0.0.0").ip :=
  (getIP_inheritance [(rootNode, newObject.withIp "0.0.0.0"), ("domains", newObject)]
    "domains" (newObject.withIp "0.0.0.0") newObject rfl rfl).2.1 rfl

/-! ## C7: close-brace handling -/

/-- C7: processing a close-brace line never faults: with more than one stack
entry the last entry is popped and the current node becomes the new top; with
an empty or one-entry stack it is a no-op, so the stack never drops below
depth one. -/
theorem close_brace_total (s : ParseState) :
    (step s Line.rbrc).isSome = true ∧
    (1 < s.nodes.length →
      step s Line.rbrc =
        some { s with nodes := s.nodes.dropLast,
                      tnode := s.nodes.dropLast.getLastD "" }) ∧
    (s.nodes.length ≤ 1 → step s Line.rbrc = some s) ∧
    (∀ s1, step s Line.rbrc = some s1 → 1 ≤ s.nodes.length → 1 ≤ s1.nodes.length) := by
  refine ⟨?_, ?_, ?_, ?_⟩
  · by_cases h : 1 < s.nodes.length <;> simp [step, h]
  · intro h
    simp [step, h]
  · intro h
    have h1 : ¬ 1 < s.nodes.length := by omega
    simp [step, h1]
  · intro s1 hs h1
    by_cases h : 1 < s.nodes.length
    · simp [step, h] at hs
      subst hs
      simp only [List.length_dropLast]
      omega
    · simp [step, h] at hs
      subst hs
      omega

theorem close_brace_total_witness :
    step ⟨"domains", "", ["blacklist", "domains"], [], none⟩ Line.rbrc =
      some ⟨"blacklist", "", ["blacklist"], [], none⟩ :=
  (close_brace_total ⟨"domains", "", ["blacklist", "domains"], [], none⟩).2.1 (by decide)

/-! ## C4: repeated node-open lines -/

/-- C4 (amended): a node-open line for X unconditionally binds X to a fresh
empty node record (config.go line 302 executes `c.tree[tnode] = newObject()`
with no presence check), so a repeated opening resets rather than augments
the accumulated state; the name is pushed onto the context stack again. -/
theorem node_reopen_resets (s : ParseState) (X : String) :
    step s (Line.node X) =
      some { s with tnode := X, nodes := s.nodes ++ [X],
                    tree := treeInsert s.tree X newObject } ∧
    treeLookup (treeInsert s.tree X newObject) X = some newObject :=
  ⟨rfl, treeLookup_insert_self _ _ _⟩

/-- C4 counterexample: after `node domains / exclude a / node domains` the
exclude accumulated before the repeated opening is gone — the final record
for "domains" has an empty exclude list, though it was `["a"]` just before
the reopening.  This refutes the claim that duplicate node openings reuse
the existing record. -/
theorem node_reopen_cex :
    (scan initState [Line.node "domains", Line.mlti true "a"]).map
        (fun st => (treeLookup st.tree "domains").map object.exc) = some (some ["a"]) ∧
    (scan initState [Line.node "domains", Line.mlti true "a", Line.node "domains"]).map
        (fun st => (treeLookup st.tree "domains").map object.exc) = some (some []) := by
  constructor
  · rfl
  · rfl

/-! ## C6: bare IP lines and the source guard -/

/-- C6: a bare IP-literal line sets the current node's ip exactly when the
most recently pushed context name is not "source"; when the top of the
context stack is "source" the whole state (in particular the node's ip) is
left unchanged. -/
theorem bare_ip_guard (s : ParseState) (v top : String) (nob : object)
    (h : s.nodes.getLast? = some top) :
    (top = src → step s (Line.ipbh v) = some s) ∧
    (top ≠ src → treeLookup s.tree s.tnode = some nob →
      step s (Line.ipbh v) =
        some { s with tree := treeInsert s.tree s.tnode (nob.withIp v) } ∧
      treeLookup (treeInsert s.tree s.tnode (nob.withIp v)) s.tnode =
        some (nob.withIp v) ∧
      (nob.withIp v).ip = v) := by
  constructor
  · intro ht
    simp [step, h, ht]
  · intro ht hn
    refine ⟨?_, treeLookup_insert_self _ _ _, by simp⟩
    simp [step, h, ht, hn]

theorem bare_ip_guard_witness :
    step ⟨"domains", "", ["domains", "source"], [("domains", newObject)], none⟩
        (Line.ipbh "1.2.3.4") =
      some ⟨"domains", "", ["domains", "source"], [("domains", newObject)], none⟩ ∧
    step ⟨"domains", "", ["domains"], [("domains", newObject)], none⟩
        (Line.ipbh "1.2.3.4") =
      some ⟨"domains", "", ["domains"], [("domains", newObject.withIp "1.2.3.4")], none⟩ :=
  ⟨(bare_ip_guard ⟨"domains", "", ["domains", "source"], [("domains", newObject)], none⟩
      "1.2.3.4" "source" newObject rfl).1 rfl,
   ((bare_ip_guard ⟨"domains", "", ["domains"], [("domains", newObject)], none⟩
      "1.2.3.4" "domains" newObject rfl).2 (by decide) rfl).1⟩

/-! ## C8: lazy ip resolution of a node's source list -/

theorem validateX_all_some (b : tree) (node : String) (rip : String)
    (hip : getIP b node = some rip) :
    ∀ xs : List (Option object), (∀ ob? ∈ xs, ob?.isSome = true) →
      validateX b node xs =
        some (xs.map (fun ob? => ob?.map
          (fun ob => if ob.ip = "" then ob.withIp rip else ob))) := by
  intro xs
  induction xs with
  | nil => intro _; rfl
  | cons hd tl ih =>
      intro hall
      have hhd : hd.isSome = true := hall hd (by simp)
      obtain ⟨ob, rfl⟩ := Option.isSome_iff_exists.mp hhd
      have htl : ∀ ob? ∈ tl, ob?.isSome = true := fun ob? hm => hall ob? (by simp [hm])
      by_cases h : ob.ip = ""
      · simp [validateX, h, hip, ih htl]
      · simp [validateX, h, ih htl]

/-- C8: for a tree containing node N (and the root, so that the inherited ip
resolves), the view of N's source list fills each source object's empty ip
with N's resolved ip, never overwrites an already-set source ip, changes no
other field, and preserves the number and order of the objects. -/
theorem validate_fills_empty_ip (b : tree) (node : String) (nob rob : object)
    (hn : treeLookup b node = some nob) (hr : treeLookup b rootNode = some rob)
    (hall : ∀ ob? ∈ nob.x, ob?.isSome = true) :
    ∃ rip, getIP b node = some rip ∧
      validate b node =
        some ⟨nob.x.map (fun ob? => ob?.map
          (fun ob => if ob.ip = "" then ob.withIp rip else ob))⟩ ∧
      (nob.x.map (fun ob? => ob?.map
          (fun ob => if ob.ip = "" then ob.withIp rip else ob))).length =
        nob.x.length ∧
      ∀ ob : object, ob.ip ≠ "" →
        (if ob.ip = "" then ob.withIp rip else ob) = ob := by
  have hip : ∃ rip, getIP b node = some rip := by
    unfold getIP
    rw [hn]
    by_cases h : nob.ip = ""
    · simp [h, hr]
    · simp [h]
  obtain ⟨rip, hip⟩ := hip
  refine ⟨rip, hip, ?_, by simp, ?_⟩
  · have hstep : validate b node =
        match validateX b node nob.x with
        | none => none
        | some xs => some ⟨xs⟩ := by
      unfold validate
      rw [hn]
    rw [hstep, validateX_all_some b node rip hip nob.x hall]
  · intro ob h
    simp [h]

theorem validate_fills_empty_ip_witness :
    validate [(rootNode, newObject.withIp "0.0.0.0"),
              ("domains", newObject.withX [some (newObject.withName "s1"),
                                           some ((newObject.withName "s2").withIp "9.9.9.9")])]
        "domains" =
      some ⟨[some ((newObject.withName "s1").withIp "0.0.0.0"),
             some ((newObject.withName "s2").withIp "9.9.9.9")]⟩ := by
  obtain ⟨rip, hip, hv, _, _⟩ :=
    validate_fills_empty_ip
      [(rootNode, newObject.withIp "0.0.0.0"),
       ("domains", newObject.withX [some (newObject.withName "s1"),
                                    some ((newObject.withName "s2").withIp "9.9.9.9")])]
      "domains"
      (newObject.withX [some (newObject.withName "s1"),
                        some ((newObject.withName "s2").withIp "9.9.9.9")])
      (newObject.withIp "0.0.0.0") rfl rfl (by decide)
  have hrip : rip = "0.0.0.0" := by
    have : getIP [(rootNode, newObject.withIp "0.0.0.0"),
                  ("domains", newObject.withX [some (newObject.withName "s1"),
                                               some ((newObject.withName "s2").withIp "9.9.9.9")])]
        "domains" = some "0.0.0.0" := by rfl
    rw [this] at hip
    exact (Option.some_inj.mp hip).symm
  subst hrip
  rw [hv]
  rfl

/-! ## C9: suffix matching on the Entry Set -/

theorem any_entryInsert (e : List (String × Int)) (k : String) (v : Int)
    (f : String → Bool) :
    (entryInsert e k v).any (fun p => f p.fst) = (e.any (fun p => f p.fst) || f k) := by
  induction e with
  | nil => simp [entryInsert]
  | cons p rest ih =>
      obtain ⟨k', v'⟩ := p
      by_cases h : k' = k
      · subst h
        simp only [entryInsert, beq_self_eq_true, if_true, List.any_cons]
        cases hf : f k' <;> simp [hf]
      · simp [entryInsert, h, ih, Bool.or_assoc]

theorem any_updateEntry_fold (f : String → Bool) :
    ∀ (data : List String) (e : List (String × Int)),
      ((data.foldl (fun e k => entryInsert e k 0) e).any (fun p => f p.fst)) =
        (e.any (fun p => f p.fst) || data.any f) := by
  intro data
  induction data with
  | nil => intro e; simp
  | cons d rest ih =>
      intro e
      simp only [List.foldl_cons, List.any_cons]
      rw [ih, any_entryInsert]
      cases f d <;> cases hae : e.any (fun p => f p.fst) <;> simp [hae]

theorem any_updateEntry (data : List String) (f : String → Bool) :
    (updateEntry data).entry.any (fun p => f p.fst) = data.any f := by
  unfold updateEntry
  rw [any_updateEntry_fold]
  simp

/-- C9: the suffix lookup `subKeyExists` returns true exactly when the key
itself or one of its dot-delimited parent domain suffixes (a suffix keeping
at least two labels) is a member of the Entry Set; in particular for
"mail.ads.example.com" exactly when the set contains "mail.ads.example.com",
"ads.example.com" or "example.com". -/
theorem subKeyExists_suffix_iff :
    (∀ (l : list) (k : String),
      l.subKeyExists k = true ↔
        (l.keyExists k = true ∨
         ∃ i, 1 ≤ i ∧ i + 2 ≤ (splitDots k).length ∧
           l.keyExists (joinDots ((splitDots k).drop i)) = true)) ∧
    (∀ l : list,
      l.subKeyExists "mail.ads.example.com" = true ↔
        (l.keyExists "mail.ads.example.com" = true ∨
         l.keyExists "ads.example.com" = true ∨
         l.keyExists "example.com" = true)) := by
  constructor
  · intro l k
    have hmain : l.subKeyExists k =
        (((List.range (splitDots k).length).filterMap (fun i =>
            if 1 ≤ i ∧ i + 2 ≤ (splitDots k).length then
              some (joinDots ((splitDots k).drop i)) else none)).any
          (fun s => l.keyExists s) || l.keyExists k) := by
      unfold list.subKeyExists getSubdomains
      simp only [any_updateEntry]
    rw [hmain, Bool.or_eq_true, List.any_eq_true, or_comm]
    apply or_congr_right
    constructor
    · rintro ⟨s, hs, hks⟩
      obtain ⟨i, _, hgi⟩ := List.mem_filterMap.mp hs
      by_cases hc : 1 ≤ i ∧ i + 2 ≤ (splitDots k).length
      · rw [if_pos hc] at hgi
        obtain rfl := Option.some_inj.mp hgi
        exact ⟨i, hc.1, hc.2, hks⟩
      · rw [if_neg hc] at hgi
        exact absurd hgi (by simp)
    · rintro ⟨i, h1, h2, hk⟩
      refine ⟨joinDots ((splitDots k).drop i), List.mem_filterMap.mpr ⟨i, ?_, ?_⟩, hk⟩
      · exact List.mem_range.mpr (by omega)
      · rw [if_pos ⟨h1, h2⟩]
  · intro l
    have h1 : getSubdomains "mail.ads.example.com" =
        ⟨[("ads.example.com", 0), ("example.com", 0)]⟩ := by rfl
    have h2 : l.subKeyExists "mail.ads.example.com" =
        (l.keyExists "ads.example.com" || l.keyExists "example.com" ||
         l.keyExists "mail.ads.example.com") := by
      unfold list.subKeyExists
      rw [h1]
      simp [Bool.or_assoc]
    rw [h2]
    simp only [Bool.or_eq_true]
    tauto

/-! ## C3: exclusion views and the all-nodes union -/

theorem mem_insertSorted (s a : String) (l : List String) :
    a ∈ insertSorted s l ↔ a = s ∨ a ∈ l := by
  induction l with
  | nil => simp [insertSorted]
  | cons t rest ih =>
      cases h : strLe s t
      · simp [insertSorted, h, ih]
        tauto
      · simp [insertSorted, h]

theorem mem_sortStrings (a : String) (l : List String) :
    a ∈ sortStrings l ↔ a ∈ l := by
  induction l with
  | nil => simp [sortStrings]
  | cons s rest ih => simp [sortStrings, mem_insertSorted, ih]

theorem mem_keys_of_treeLookup (t : tree) (k : String) (nob : object)
    (h : treeLookup t k = some nob) : k ∈ treeKeys t := by
  induction t with
  | nil => simp [treeLookup] at h
  | cons p rest ih =>
      obtain ⟨k', w⟩ := p
      by_cases hk : k' = k
      · simp [treeKeys, hk]
      · rw [treeLookup, if_neg (by simpa using hk)] at h
        simp [treeKeys] at ih ⊢
        exact Or.inr (ih h)

theorem mem_excAllAcc (c : Config) (x : String) :
    ∀ keys : List String,
      x ∈ excAllAcc c keys ↔
        ∃ nd ∈ keys, ∃ nob, treeLookup c.tree nd = some nob ∧ x ∈ nob.exc := by
  intro keys
  induction keys with
  | nil => simp [excAllAcc]
  | cons k rest ih =>
      cases hk : treeLookup c.tree k with
      | none =>
          rw [excAllAcc, hk, ih]
          constructor
          · rintro ⟨nd, hnd, nob, hl, hm⟩
            exact ⟨nd, by simp [hnd], nob, hl, hm⟩
          · rintro ⟨nd, hnd, nob, hl, hm⟩
            rcases List.mem_cons.mp hnd with rfl | hnd'
            · rw [hk] at hl
              exact absurd hl (by simp)
            · exact ⟨nd, hnd', nob, hl, hm⟩
      | some nob =>
          rw [excAllAcc, hk]
          rw [List.mem_append, ih]
          constructor
          · rintro (hx | ⟨nd, hnd, nob', hl, hm⟩)
            · by_cases he : nob.exc.length ≠ 0
              · rw [if_pos he] at hx
                exact ⟨k, by simp, nob, hk, hx⟩
              · rw [if_neg he] at hx
                exact absurd hx (by simp)
            · exact ⟨nd, by simp [hnd], nob', hl, hm⟩
          · rintro ⟨nd, hnd, nob', hl, hm⟩
            rcases List.mem_cons.mp hnd with rfl | hnd'
            · rw [hk] at hl
              have hbn : nob' = nob := (Option.some_inj.mp hl).symm
              rw [hbn] at hm
              left
              have he : nob.exc.length ≠ 0 := by
                intro h0
                rw [List.length_eq_zero.mp h0] at hm
                simp at hm
              rw [if_pos he]
              exact hm
            · exact Or.inr ⟨nd, hnd', nob', hl, hm⟩

/-- C3 (amended): the root-scope exclusion view synthesized by `addExc`
contains one aggregate object whose `exc` field is the ROOT NODE'S OWN
exclude list (config.go line 89 reads `c.tree[node].exc`), not the union
across all nodes; the union with presence semantics is what the separate
`excludes` helper returns when called with no scopes. -/
theorem addExc_root_view (c : Config) (rob : object)
    (hr : treeLookup c.tree rootNode = some rob) :
    (∃ agg : object, c.addExc rootNode = some ⟨[some agg]⟩ ∧
       agg.exc = rob.exc ∧ agg.ip = rob.ip ∧ agg.ltype = ExcRoots ∧
       agg.name = ExcRoots ∧ agg.nType = ntype.excRoot) ∧
    (∀ x l, c.excludes [] = some l →
       (l.keyExists x = true ↔
         ∃ nd nob, treeLookup c.tree nd = some nob ∧ x ∈ nob.exc)) := by
  have hgip : getIP c.tree rootNode = some rob.ip := by
    unfold getIP
    rw [hr]
    by_cases h : rob.ip = "" <;> simp [h, hr]
  constructor
  · refine ⟨.mk (ExcRoots ++ " exclusions") false rob.exc "" [] rob.ip ExcRoots
      ExcRoots (getTypeStr ExcRoots) [] "" "", ?_, rfl, rfl, rfl, rfl, rfl⟩
    have h1 : ¬ (rootNode = domains) := by decide
    have h2 : ¬ (rootNode = hosts) := by decide
    simp [Config.addExc, h1, h2, hr, hgip]
  · intro x l hl
    simp only [Config.excludes, Option.some_inj] at hl
    subst hl
    have hky : (updateEntry (excAllAcc c c.Nodes)).keyExists x =
        (excAllAcc c c.Nodes).any (fun s => s == x) :=
      any_updateEntry (excAllAcc c c.Nodes) (fun s => s == x)
    rw [hky, List.any_eq_true]
    constructor
    · rintro ⟨s, hs, hsx⟩
      obtain rfl : s = x := beq_iff_eq.mp hsx
      obtain ⟨nd, _, nob, hl2, hm⟩ := (mem_excAllAcc c s c.Nodes).mp hs
      exact ⟨nd, nob, hl2, hm⟩
    · rintro ⟨nd, nob, hl2, hm⟩
      refine ⟨x, ?_, by simp⟩
      refine (mem_excAllAcc c x c.Nodes).mpr ⟨nd, ?_, nob, hl2, hm⟩
      unfold Config.Nodes
      rw [mem_sortStrings]
      exact mem_keys_of_treeLookup c.tree nd nob hl2

theorem addExc_root_view_witness :
    ∃ agg : object,
      Config.addExc ⟨⟨[], []⟩, [("blacklist", (newObject.withIp "0.0.0.0").withExc ["r1"])]⟩
          "blacklist" = some ⟨[some agg]⟩ ∧
      agg.exc = ((newObject.withIp "0.0.0.0").withExc ["r1"]).exc ∧
      agg.ip = ((newObject.withIp "0.0.0.0").withExc ["r1"]).ip ∧
      agg.ltype = ExcRoots ∧ agg.name = ExcRoots ∧ agg.nType = ntype.excRoot :=
  (addExc_root_view ⟨⟨[], []⟩, [("blacklist", (newObject.withIp "0.0.0.0").withExc ["r1"])]⟩
    ((newObject.withIp "0.0.0.0").withExc ["r1"]) rfl).1

/-- C3 counterexample: in a tree where the root's own exclude list is empty
and the "domains" node excludes "b", the root-scope aggregate's `exc` field
is empty — it does not contain "b" — while the all-nodes union (the
`excludes` helper) does contain "b".  This refutes the claim that the
root-scope view's excludes field equals the union across all nodes. -/
theorem addExc_root_not_union_cex :
    (Config.addExc ⟨⟨[], []⟩, [("blacklist", newObject),
        ("domains", newObject.withExc ["b"])]⟩ "blacklist").map
      (fun os => os.x.map (fun ob? => ob?.map object.exc)) = some [some []] ∧
    (Config.excludes ⟨⟨[], []⟩, [("blacklist", newObject),
        ("domains", newObject.withExc ["b"])]⟩ []).map
      (fun l => l.keyExists "b") = some true := by
  constructor
  · rfl
  · rfl

/-! ## C5: preconfigured-inclusion views -/

theorem addInc_domains (c : Config) (dob : object) (ipv : String)
    (hd : treeLookup c.tree domains = some dob)
    (hip : getIP c.tree domains = some ipv) :
    c.addInc domains =
      if 0 < dob.inc.length then
        some (some (.mk (PreDomns ++ " blacklist content") false [] "" dob.inc ipv
          PreDomns ("includes.[" ++ toString dob.inc.length ++ "]") ntype.preDomn [] "" ""))
      else some none := by
  have e1 : getTypeOfN ntype.preDomn = PreDomns := rfl
  have e2 : getTypeStr PreDomns = ntype.preDomn := by decide
  unfold Config.addInc
  rw [hd]
  by_cases h : 0 < dob.inc.length
  · simp [h, hip, e1, e2]
  · simp [h]

theorem addInc_hosts (c : Config) (hob : object) (ipv : String)
    (hh : treeLookup c.tree hosts = some hob)
    (hip : getIP c.tree hosts = some ipv) :
    c.addInc hosts =
      if 0 < hob.inc.length then
        some (some (.mk (PreHosts ++ " blacklist content") false [] "" hob.inc ipv
          PreHosts ("includes.[" ++ toString hob.inc.length ++ "]") ntype.preHost [] "" ""))
      else some none := by
  have e1 : getTypeOfN ntype.preHost = PreHosts := rfl
  have e2 : getTypeStr PreHosts = ntype.preHost := by decide
  have e3 : ¬ (hosts = domains) := by decide
  unfold Config.addInc
  rw [hh]
  by_cases h : 0 < hob.inc.length
  · simp [h, hip, e1, e2, e3]
  · simp [h]

theorem getAll_PreDomns_eval (c : Config) (ob? : Option object)
    (hnodes : c.Parms.Nodes = [domains, hosts])
    (ha : c.addInc domains = some ob?) :
    c.GetAll [PreDomns] = some ⟨[ob?]⟩ := by
  have e1 : ¬ (hosts = domains) := by decide
  unfold Config.GetAll
  rw [hnodes]
  simp only [getAllNodes, getAllLts, ha, e1, if_pos rfl, eq_self_iff_true,
    true_and, false_and, if_false, if_true, Bool.false_eq_true, Option.map_some]
  simp

theorem getAll_PreHosts_eval (c : Config) (ob? : Option object)
    (hnodes : c.Parms.Nodes = [domains, hosts])
    (ha : c.addInc hosts = some ob?) :
    c.GetAll [PreHosts] = some ⟨[ob?]⟩ := by
  have e1 : ¬ (domains = hosts) := by decide
  have e2 : ¬ (PreHosts = PreDomns) := by decide
  unfold Config.GetAll
  rw [hnodes]
  simp only [getAllNodes, getAllLts, ha, e1, e2, if_pos rfl, eq_self_iff_true,
    true_and, false_and, if_false, if_true, Bool.false_eq_true, Option.map_some]
  simp

/-- C5 (amended): for the default scope list `[domains, hosts]`, the
preconfigured-inclusion view contains a non-nil aggregate object exactly when
the scope node's include list is non-empty — but when the list is empty the
view is NOT empty: `GetAll` unconditionally appends `addInc`'s result
(config.go lines 227/232), which is a nil pointer then, so the view holds one
nil placeholder.  When present, the aggregate's name embeds the include count
and its type tag is preconfigured-domain resp. preconfigured-host. -/
theorem getAll_preconfigured_view (c : Config) (dob hob rob : object)
    (hnodes : c.Parms.Nodes = [domains, hosts])
    (hd : treeLookup c.tree domains = some dob)
    (hh : treeLookup c.tree hosts = some hob)
    (hr : treeLookup c.tree rootNode = some rob) :
    (dob.inc = [] → c.GetAll [PreDomns] = some ⟨[none]⟩) ∧
    (dob.inc ≠ [] → ∃ ob : object, c.GetAll [PreDomns] = some ⟨[some ob]⟩ ∧
       ob.inc = dob.inc ∧ ob.ltype = PreDomns ∧
       ob.name = "includes.[" ++ toString dob.inc.length ++ "]" ∧
       ob.nType = ntype.preDomn) ∧
    (hob.inc = [] → c.GetAll [PreHosts] = some ⟨[none]⟩) ∧
    (hob.inc ≠ [] → ∃ ob : object, c.GetAll [PreHosts] = some ⟨[some ob]⟩ ∧
       ob.inc = hob.inc ∧ ob.ltype = PreHosts ∧
       ob.name = "includes.[" ++ toString hob.inc.length ++ "]" ∧
       ob.nType = ntype.preHost) := by
  have hgd : ∃ ipv, getIP c.tree domains = some ipv := by
    unfold getIP
    rw [hd]
    by_cases h : dob.ip = "" <;> simp [h, hr]
  have hgh : ∃ ipv, getIP c.tree hosts = some ipv := by
    unfold getIP
    rw [hh]
    by_cases h : hob.ip = "" <;> simp [h, hr]
  obtain ⟨ipd, hipd⟩ := hgd
  obtain ⟨iph, hiph⟩ := hgh
  refine ⟨?_, ?_, ?_, ?_⟩
  · intro hinc
    have h0 : ¬ 0 < dob.inc.length := by simp [hinc]
    have ha := addInc_domains c dob ipd hd hipd
    rw [if_neg h0] at ha
    exact getAll_PreDomns_eval c none hnodes ha
  · intro hinc
    have h0 : 0 < dob.inc.length := by
      cases hle : dob.inc with
      | nil => exact absurd hle hinc
      | cons a l => simp [hle]
    have ha := addInc_domains c dob ipd hd hipd
    rw [if_pos h0] at ha
    exact ⟨_, getAll_PreDomns_eval c _ hnodes ha, rfl, rfl, rfl, rfl⟩
  · intro hinc
    have h0 : ¬ 0 < hob.inc.length := by simp [hinc]
    have ha := addInc_hosts c hob iph hh hiph
    rw [if_neg h0] at ha
    exact getAll_PreHosts_eval c none hnodes ha
  · intro hinc
    have h0 : 0 < hob.inc.length := by
      cases hle : hob.inc with
      | nil => exact absurd hle hinc
      | cons a l => simp [hle]
    have ha := addInc_hosts c hob iph hh hiph
    rw [if_pos h0] at ha
    exact ⟨_, getAll_PreHosts_eval c _ hnodes ha, rfl, rfl, rfl, rfl⟩

theorem getAll_preconfigured_view_witness :
    ∃ ob : object,
      Config.GetAll ⟨⟨[domains, hosts], []⟩,
          [("blacklist", newObject), ("domains", newObject.withInc ["a", "b"]),
           ("hosts", newObject)]⟩ [PreDomns] = some ⟨[some ob]⟩ ∧
      ob.inc = (newObject.withInc ["a", "b"]).inc ∧ ob.ltype = PreDomns ∧
      ob.name = "includes.[" ++ toString (newObject.withInc ["a", "b"]).inc.length ++ "]" ∧
      ob.nType = ntype.preDomn :=
  (getAll_preconfigured_view
    ⟨⟨[domains, hosts], []⟩,
      [("blacklist", newObject), ("domains", newObject.withInc ["a", "b"]),
       ("hosts", newObject)]⟩
    (newObject.withInc ["a", "b"]) newObject newObject
    rfl rfl rfl rfl).2.1 (by decide)

/-- C5 counterexample: with an empty include list on "domains" the
preconfigured-domain view is not empty — it contains exactly one nil
placeholder (`addInc` returned a nil pointer and `GetAll` appended it),
refuting the claim that the returned view then contains no object and in
particular no nil placeholder. -/
theorem getAll_nil_placeholder_cex :
    (Config.GetAll ⟨⟨["domains", "hosts"], []⟩,
        [("blacklist", newObject), ("domains", newObject), ("hosts", newObject)]⟩
      [PreDomns]).map (fun os => os.x) = some [none] ∧
    (treeLookup [("blacklist", newObject), ("domains", newObject),
        ("hosts", newObject)] "domains").map object.inc = some [] := by
  constructor
  · rfl
  · rfl

/-! ## C1: the empty-configuration error -/

def Line.isNode : Line → Bool
  | .node _ => true
  | _ => false

/-- Every successful scanner step leaves the tree unchanged, binds a fresh
node record (node-open lines), or rewrites a binding that was already
present. -/
theorem step_tree_shape {s s1 : ParseState} {l : Line} (h : step s l = some s1) :
    s1.tree = s.tree ∨
    (∃ nm, l = Line.node nm ∧ s1.tree = treeInsert s.tree nm newObject) ∨
    (∃ k w, (treeLookup s.tree k).isSome = true ∧ s1.tree = treeInsert s.tree k w) := by
  cases l with
  | mlti a v =>
      simp only [step] at h
      cases hm : treeLookup s.tree s.tnode with
      | none => rw [hm] at h; simp at h
      | some nob =>
          rw [hm] at h
          obtain rfl := Option.some_inj.mp h
          exact Or.inr (Or.inr ⟨s.tnode, _, by simp [hm], rfl⟩)
  | node nm =>
      simp only [step] at h
      obtain rfl := Option.some_inj.mp h
      exact Or.inr (Or.inl ⟨nm, rfl, rfl⟩)
  | leaf k nm =>
      simp only [step] at h
      by_cases hk : (k == src) = true
      · rw [if_pos hk] at h
        obtain rfl := Option.some_inj.mp h
        exact Or.inl rfl
      · rw [if_neg hk] at h
        obtain rfl := Option.some_inj.mp h
        exact Or.inl rfl
  | dsbl v =>
      simp only [step] at h
      cases hm : treeLookup s.tree s.tnode with
      | none => rw [hm] at h; simp at h
      | some nob =>
          rw [hm] at h
          obtain rfl := Option.some_inj.mp h
          exact Or.inr (Or.inr ⟨s.tnode, _, by simp [hm], rfl⟩)
  | ipbh v =>
      simp only [step] at h
      cases hg : s.nodes.getLast? with
      | none => rw [hg] at h; simp at h
      | some top =>
          simp only [hg] at h
          by_cases htop : (top == src) = true
          · rw [if_pos htop] at h
            obtain rfl := Option.some_inj.mp h
            exact Or.inl rfl
          · rw [if_neg htop] at h
            cases hm : treeLookup s.tree s.tnode with
            | none => rw [hm] at h; simp at h
            | some nob =>
                rw [hm] at h
                obtain rfl := Option.some_inj.mp h
                exact Or.inr (Or.inr ⟨s.tnode, _, by simp [hm], rfl⟩)
  | name key v =>
      simp only [step] at h
      by_cases h1 : (key == "description") = true
      · rw [if_pos h1] at h
        cases ho : s.o with
        | none => rw [ho] at h; simp at h
        | some ob =>
            rw [ho] at h
            obtain rfl := Option.some_inj.mp h
            exact Or.inl rfl
      · rw [if_neg h1] at h
        by_cases h2 : (key == blackhole) = true
        · rw [if_pos h2] at h
          cases ho : s.o with
          | none => rw [ho] at h; simp at h
          | some ob =>
              rw [ho] at h
              obtain rfl := Option.some_inj.mp h
              exact Or.inl rfl
        · rw [if_neg h2] at h
          by_cases h3 : (key == files) = true
          · rw [if_pos h3] at h
            cases ho : s.o with
            | none => rw [ho] at h; simp at h
            | some ob =>
                rw [ho] at h
                cases hm : treeLookup s.tree s.tnode with
                | none => rw [hm] at h; simp at h
                | some nob =>
                    rw [hm] at h
                    obtain rfl := Option.some_inj.mp h
                    exact Or.inr (Or.inr ⟨s.tnode, _, by simp [hm], rfl⟩)
          · rw [if_neg h3] at h
            by_cases h4 : (key == "prefix") = true
            · rw [if_pos h4] at h
              cases ho : s.o with
              | none => rw [ho] at h; simp at h
              | some ob =>
                  rw [ho] at h
                  obtain rfl := Option.some_inj.mp h
                  exact Or.inl rfl
            · rw [if_neg h4] at h
              by_cases h5 : (key == urls) = true
              · rw [if_pos h5] at h
                cases ho : s.o with
                | none => rw [ho] at h; simp at h
                | some ob =>
                    rw [ho] at h
                    cases hm : treeLookup s.tree s.tnode with
                    | none => rw [hm] at h; simp at h
                    | some nob =>
                        rw [hm] at h
                        obtain rfl := Option.some_inj.mp h
                        exact Or.inr (Or.inr ⟨s.tnode, _, by simp [hm], rfl⟩)
              · rw [if_neg h5] at h
                obtain rfl := Option.some_inj.mp h
                exact Or.inl rfl
  | cmnt =>
      simp only [step] at h
      obtain rfl := Option.some_inj.mp h
      exact Or.inl rfl
  | rbrc =>
      simp only [step] at h
      by_cases hlen : 1 < s.nodes.length
      · rw [if_pos hlen] at h
        obtain rfl := Option.some_inj.mp h
        exact Or.inl rfl
      · rw [if_neg hlen] at h
        obtain rfl := Option.some_inj.mp h
        exact Or.inl rfl

theorem scan_tree_empty (lines : List Line) :
    ∀ s st : ParseState, scan s lines = some st →
      (∀ l ∈ lines, l.isNode = false) → s.tree = [] → st.tree = [] := by
  induction lines with
  | nil =>
      intro s st h _ ht
      simp only [scan, Option.some_inj] at h
      rw [← h]
      exact ht
  | cons l ls ih =>
      intro s st h hno ht
      rw [scan] at h
      cases hs : step s l with
      | none => rw [hs] at h; simp at h
      | some s1 =>
          rw [hs] at h
          have hnol : l.isNode = false := hno l (by simp)
          have h1 : s1.tree = [] := by
            rcases step_tree_shape hs with heq | ⟨nm, rfl, _⟩ | ⟨k, w, hsm, _⟩
            · rw [heq]; exact ht
            · simp [Line.isNode] at hnol
            · rw [ht] at hsm
              simp [treeLookup] at hsm
          exact ih s1 st h (fun l' hl' => hno l' (by simp [hl'])) h1

theorem scan_tree_ne_nil (lines : List Line) :
    ∀ s st : ParseState, scan s lines = some st → s.tree ≠ [] → st.tree ≠ [] := by
  induction lines with
  | nil =>
      intro s st h ht
      simp only [scan, Option.some_inj] at h
      rw [← h]
      exact ht
  | cons l ls ih =>
      intro s st h ht
      rw [scan] at h
      cases hs : step s l with
      | none => rw [hs] at h; simp at h
      | some s1 =>
          rw [hs] at h
          have h1 : s1.tree ≠ [] := by
            rcases step_tree_shape hs with heq | ⟨nm, _, htr⟩ | ⟨k, w, _, htr⟩
            · rw [heq]; exact ht
            · rw [htr]; exact treeInsert_ne_nil _ _ _
            · rw [htr]; exact treeInsert_ne_nil _ _ _
          exact ih s1 st h h1

theorem scan_node_tree_ne_nil (lines : List Line) :
    ∀ s st : ParseState, scan s lines = some st →
      (∃ l ∈ lines, l.isNode = true) → st.tree ≠ [] := by
  induction lines with
  | nil =>
      intro s st _ hex
      obtain ⟨l, hl, _⟩ := hex
      simp at hl
  | cons l ls ih =>
      intro s st h hex
      rw [scan] at h
      cases hs : step s l with
      | none => rw [hs] at h; simp at h
      | some s1 =>
          rw [hs] at h
          obtain ⟨l0, hl0, hnode⟩ := hex
          rcases List.mem_cons.mp hl0 with rfl | hl0'
          · have h1 : s1.tree ≠ [] := by
              cases l0 with
              | node nm =>
                  simp only [step] at hs
                  obtain rfl := Option.some_inj.mp hs
                  exact treeInsert_ne_nil _ _ _
              | mlti a v => simp [Line.isNode] at hnode
              | leaf a b => simp [Line.isNode] at hnode
              | dsbl a => simp [Line.isNode] at hnode
              | ipbh a => simp [Line.isNode] at hnode
              | name a b => simp [Line.isNode] at hnode
              | cmnt => simp [Line.isNode] at hnode
              | rbrc => simp [Line.isNode] at hnode
            exact scan_tree_ne_nil ls s1 st h h1
          · exact ih s1 st h ⟨l0, hl0', hnode⟩

/-- C1: when the scan of a line sequence completes (no context fault),
`ReadCfg` returns the empty-configuration error exactly when the resulting
tree holds zero nodes; an input with no node-open line yields that error, and
any input containing a node-open line yields success with a non-empty tree. -/
theorem readCfg_fails_iff_empty (lines : List Line) (st : ParseState)
    (h : scan initState lines = some st) :
    (ReadCfg lines = some (Except.error emptyMsg) ↔ st.tree = []) ∧
    ((∀ l ∈ lines, l.isNode = false) → ReadCfg lines = some (Except.error emptyMsg)) ∧
    ((∃ l ∈ lines, l.isNode = true) →
      ReadCfg lines = some (Except.ok st.tree) ∧ st.tree ≠ []) := by
  have hrc : ReadCfg lines =
      some (if st.tree.isEmpty then Except.error emptyMsg else Except.ok st.tree) := by
    unfold ReadCfg
    rw [h]
    rfl
  have hiff : ReadCfg lines = some (Except.error emptyMsg) ↔ st.tree = [] := by
    constructor
    · intro he
      rw [hrc] at he
      by_cases hq : st.tree.isEmpty
      · exact List.isEmpty_iff.mp hq
      · rw [if_neg hq] at he
        simp at he
    · intro he
      have hq : st.tree.isEmpty = true := by
        rw [he]
        rfl
      rw [hrc, if_pos hq]
  refine ⟨hiff, ?_, ?_⟩
  · intro hno
    exact hiff.mpr (scan_tree_empty lines initState st h hno rfl)
  · intro hex
    have hne : st.tree ≠ [] := scan_node_tree_ne_nil lines initState st h hex
    have hq : ¬ st.tree.isEmpty = true := by
      intro hq
      exact hne (List.isEmpty_iff.mp hq)
    exact ⟨by rw [hrc, if_neg hq], hne⟩

theorem readCfg_fails_iff_empty_witness :
    ReadCfg [Line.node "domains"] =
      some (Except.ok ([("domains", newObject)] : List (String × object))) ∧
    (⟨"domains", "", ["domains"], [("domains", newObject)], none⟩ : ParseState).tree ≠ [] :=
  (readCfg_fails_iff_empty [Line.node "domains"]
    ⟨"domains", "", ["domains"], [("domains", newObject)], none⟩ rfl).2.2
    ⟨Line.node "domains", by simp, rfl⟩

/-! ## C10: totality of the scan under a context discipline -/

/-- Tags recording whether a context-stack entry was pushed by a node-open
or by a leaf-open line (shadow stack of the scan preconditions below). -/
inductive Tag where
  | node
  | leaf
deriving DecidableEq

/-- The context discipline exactly as the claim states it: every multi-value,
disabled-flag and bare-IP line is preceded by at least one node-open line,
and every named-attribute line (description, dns-redirect-ip, file, prefix,
url) is preceded by a source leaf-open line. -/
def origPreOK : Bool → Bool → List Line → Bool
  | _, _, [] => true
  | hasNode, hasSrc, l :: ls =>
      match l with
      | .mlti _ _ => hasNode && origPreOK hasNode hasSrc ls
      | .dsbl _ => hasNode && origPreOK hasNode hasSrc ls
      | .ipbh _ => hasNode && origPreOK hasNode hasSrc ls
      | .name key _ =>
          (if key == "description" then hasSrc
           else if key == blackhole then hasSrc
           else if key == files then hasSrc
           else if key == "prefix" then hasSrc
           else if key == urls then hasSrc
           else true) && origPreOK hasNode hasSrc ls
      | .node _ => origPreOK true hasSrc ls
      | .leaf kind _ => origPreOK hasNode (hasSrc || kind == src) ls
      | _ => origPreOK hasNode hasSrc ls

/-- The strengthened context discipline (the amended claim): in addition to
the original requirements, a file/url attribute line must also follow a
node-open line, and a close-brace that pops must expose a context entry that
was pushed by a node-open line (otherwise the current node name can become a
leaf kind that is no key of the tree). -/
def nestPreOK : Bool → Bool → List Tag → List Line → Bool
  | _, _, _, [] => true
  | hasNode, hasSrc, stk, l :: ls =>
      match l with
      | .mlti _ _ => hasNode && nestPreOK hasNode hasSrc stk ls
      | .dsbl _ => hasNode && nestPreOK hasNode hasSrc stk ls
      | .ipbh _ => hasNode && nestPreOK hasNode hasSrc stk ls
      | .name key _ =>
          (if key == "description" then hasSrc
           else if key == blackhole then hasSrc
           else if key == files then hasSrc && hasNode
           else if key == "prefix" then hasSrc
           else if key == urls then hasSrc && hasNode
           else true) && nestPreOK hasNode hasSrc stk ls
      | .node _ => nestPreOK true hasSrc (stk ++ [Tag.node]) ls
      | .leaf kind _ => nestPreOK hasNode (hasSrc || kind == src) (stk ++ [Tag.leaf]) ls
      | .rbrc =>
          if 1 < stk.length then
            (stk.dropLast.getLast? == some Tag.node) &&
              nestPreOK hasNode hasSrc stk.dropLast ls
          else nestPreOK hasNode hasSrc stk ls
      | .cmnt => nestPreOK hasNode hasSrc stk ls

/-- The scan invariant tied to the shadow state of `nestPreOK`: node-pushed
stack entries are keys of the tree; once a node-open has been seen the stack
is non-empty and the current node is a key; once a source leaf has been
opened the pending source is non-nil. -/
def scanInv (hasNode hasSrc : Bool) (stk : List Tag) (s : ParseState) : Prop :=
  List.Forall₂ (fun tg nm => tg = Tag.node → (treeLookup s.tree nm).isSome = true)
    stk s.nodes ∧
  (hasNode = true → s.nodes ≠ [] ∧ (treeLookup s.tree s.tnode).isSome = true) ∧
  (hasSrc = true → s.o.isSome = true)

theorem forall2_dropLast {P : Tag → String → Prop} :
    ∀ {l1 : List Tag} {l2 : List String}, List.Forall₂ P l1 l2 →
      List.Forall₂ P l1.dropLast l2.dropLast := by
  intro l1
  induction l1 with
  | nil =>
      intro l2 h
      cases h
      exact List.Forall₂.nil
  | cons a as ih =>
      intro l2 h
      cases h with
      | cons hab htail =>
          rename_i b bs
          cases as with
          | nil =>
              cases htail
              exact List.Forall₂.nil
          | cons a2 as2 =>
              cases htail with
              | cons hab2 htail2 =>
                  rename_i b2 bs2
                  show List.Forall₂ P (a :: (a2 :: as2).dropLast) (b :: (b2 :: bs2).dropLast)
                  exact List.Forall₂.cons hab (ih (List.Forall₂.cons hab2 htail2))

theorem forall2_getLast? {P : Tag → String → Prop} :
    ∀ {l1 : List Tag} {l2 : List String}, List.Forall₂ P l1 l2 →
      ∀ {a : Tag}, l1.getLast? = some a → ∃ b, l2.getLast? = some b ∧ P a b := by
  intro l1
  induction l1 with
  | nil =>
      intro l2 h a ha
      simp at ha
  | cons x xs ih =>
      intro l2 h a ha
      cases h with
      | cons hxy htail =>
          rename_i y ys
          cases xs with
          | nil =>
              cases htail
              simp at ha
              subst ha
              exact ⟨y, by simp, hxy⟩
          | cons x2 xs2 =>
              cases htail with
              | cons hx2y2 htail2 =>
                  rename_i y2 ys2
                  have ha2 : (x2 :: xs2).getLast? = some a := by
                    simpa [List.getLast?_cons_cons] using ha
                  obtain ⟨b, hb, hPb⟩ := ih (List.Forall₂.cons hx2y2 htail2) ha2
                  exact ⟨b, by simpa [List.getLast?_cons_cons] using hb, hPb⟩

theorem getLast?_some_of_ne_nil : ∀ (l : List String), l ≠ [] → ∃ a, l.getLast? = some a := by
  intro l
  induction l with
  | nil => intro h; exact absurd rfl h
  | cons a as ih =>
      intro _
      cases as with
      | nil => exact ⟨a, by simp⟩
      | cons b bs =>
          obtain ⟨x, hx⟩ := ih (by simp)
          exact ⟨x, by rw [List.getLast?_cons_cons]; exact hx⟩

theorem getLastD_eq_of_getLast? (l : List String) (b : String)
    (h : l.getLast? = some b) : l.getLastD "" = b := by
  rw [List.getLastD_eq_getLast?, h]
  rfl

theorem scan_total_aux (lines : List Line) :
    ∀ (hasNode hasSrc : Bool) (stk : List Tag) (s : ParseState),
      nestPreOK hasNode hasSrc stk lines = true →
      scanInv hasNode hasSrc stk s →
      (scan s lines).isSome = true := by
  induction lines with
  | nil =>
      intro _ _ _ s _ _
      simp [scan]
  | cons l ls ih =>
      intro hasNode hasSrc stk s hpre hinv
      obtain ⟨hf2, hhn, hhs⟩ := hinv
      cases l with
      | mlti a v =>
          simp only [nestPreOK, Bool.and_eq_true] at hpre
          obtain ⟨hn, hrest⟩ := hpre
          obtain ⟨nob, hnob⟩ := Option.isSome_iff_exists.mp (hhn hn).2
          rw [scan]
          simp only [step, hnob]
          refine ih hasNode hasSrc stk _ hrest ⟨?_, ?_, hhs⟩
          · exact hf2.imp (fun tg nm hp ht =>
              treeLookup_isSome_insert s.tree s.tnode nm _ (hp ht))
          · intro hn2
            exact ⟨(hhn hn2).1, by simp⟩
      | node nm =>
          simp only [nestPreOK] at hpre
          rw [scan]
          simp only [step]
          refine ih true hasSrc (stk ++ [Tag.node]) _ hpre ⟨?_, ?_, hhs⟩
          · refine List.rel_append ?_ ?_
            · exact hf2.imp (fun tg nm2 hp ht =>
                treeLookup_isSome_insert s.tree nm nm2 _ (hp ht))
            · exact List.Forall₂.cons (fun _ => by simp) List.Forall₂.nil
          · intro _
            exact ⟨by simp, by simp⟩
      | leaf kind nm =>
          simp only [nestPreOK] at hpre
          rw [scan]
          by_cases hk : (kind == src) = true
          · simp only [step, hk, if_true]
            refine ih hasNode (hasSrc || kind == src) (stk ++ [Tag.leaf]) _ hpre
              ⟨?_, ?_, fun _ => by simp⟩
            · refine List.rel_append hf2 ?_
              exact List.Forall₂.cons (fun h => absurd h (by decide)) List.Forall₂.nil
            · intro hn2
              exact ⟨by simp, (hhn hn2).2⟩
          · simp only [step, hk, Bool.false_eq_true, if_false]
            refine ih hasNode (hasSrc || kind == src) (stk ++ [Tag.leaf]) _ hpre
              ⟨?_, ?_, ?_⟩
            · refine List.rel_append hf2 ?_
              exact List.Forall₂.cons (fun h => absurd h (by decide)) List.Forall₂.nil
            · intro hn2
              exact ⟨by simp, (hhn hn2).2⟩
            · intro hor
              rw [Bool.or_eq_true] at hor
              rcases hor with h | h
              · exact hhs h
              · exact absurd h hk
      | dsbl v =>
          simp only [nestPreOK, Bool.and_eq_true] at hpre
          obtain ⟨hn, hrest⟩ := hpre
          obtain ⟨nob, hnob⟩ := Option.isSome_iff_exists.mp (hhn hn).2
          rw [scan]
          simp only [step, hnob]
          refine ih hasNode hasSrc stk _ hrest ⟨?_, ?_, hhs⟩
          · exact hf2.imp (fun tg nm hp ht =>
              treeLookup_isSome_insert s.tree s.tnode nm _ (hp ht))
          · intro hn2
            exact ⟨(hhn hn2).1, by simp⟩
      | ipbh v =>
          simp only [nestPreOK, Bool.and_eq_true] at hpre
          obtain ⟨hn, hrest⟩ := hpre
          obtain ⟨hne, hlk⟩ := hhn hn
          obtain ⟨top, htop⟩ := getLast?_some_of_ne_nil s.nodes hne
          rw [scan]
          by_cases hts : (top == src) = true
          · simp only [step, htop, hts, if_true]
            exact ih hasNode hasSrc stk s hrest ⟨hf2, hhn, hhs⟩
          · obtain ⟨nob, hnob⟩ := Option.isSome_iff_exists.mp hlk
            simp only [step, htop, hts, Bool.false_eq_true, if_false, hnob]
            refine ih hasNode hasSrc stk _ hrest ⟨?_, ?_, hhs⟩
            · exact hf2.imp (fun tg nm hp ht =>
                treeLookup_isSome_insert s.tree s.tnode nm _ (hp ht))
            · intro hn2
              exact ⟨(hhn hn2).1, by simp⟩
      | name key v =>
          simp only [nestPreOK, Bool.and_eq_true] at hpre
          obtain ⟨hcond, hrest⟩ := hpre
          rw [scan]
          by_cases h1 : (key == "description") = true
          · rw [if_pos h1] at hcond
            obtain ⟨ob, hob⟩ := Option.isSome_iff_exists.mp (hhs hcond)
            simp only [step, h1, if_true, hob]
            exact ih hasNode hasSrc stk _ hrest ⟨hf2, hhn, fun _ => by simp⟩
          · rw [if_neg h1] at hcond
            by_cases h2 : (key == blackhole) = true
            · rw [if_pos h2] at hcond
              obtain ⟨ob, hob⟩ := Option.isSome_iff_exists.mp (hhs hcond)
              simp only [step, h1, Bool.false_eq_true, if_false, h2, if_true, hob]
              exact ih hasNode hasSrc stk _ hrest ⟨hf2, hhn, fun _ => by simp⟩
            · rw [if_neg h2] at hcond
              by_cases h3 : (key == files) = true
              · rw [if_pos h3] at hcond
                rw [Bool.and_eq_true] at hcond
                obtain ⟨hsrc, hn⟩ := hcond
                obtain ⟨ob, hob⟩ := Option.isSome_iff_exists.mp (hhs hsrc)
                obtain ⟨nob, hnob⟩ := Option.isSome_iff_exists.mp (hhn hn).2
                simp only [step, h1, h2, Bool.false_eq_true, if_false, h3, if_true,
                  hob, hnob]
                refine ih hasNode hasSrc stk _ hrest ⟨?_, ?_, fun _ => by simp⟩
                · exact hf2.imp (fun tg nm hp ht =>
                    treeLookup_isSome_insert s.tree s.tnode nm _ (hp ht))
                · intro hn2
                  exact ⟨(hhn hn2).1, by simp⟩
              · rw [if_neg h3] at hcond
                by_cases h4 : (key == "prefix") = true
                · rw [if_pos h4] at hcond
                  obtain ⟨ob, hob⟩ := Option.isSome_iff_exists.mp (hhs hcond)
                  simp only [step, h1, h2, h3, Bool.false_eq_true, if_false, h4,
                    if_true, hob]
                  exact ih hasNode hasSrc stk _ hrest ⟨hf2, hhn, fun _ => by simp⟩
                · rw [if_neg h4] at hcond
                  by_cases h5 : (key == urls) = true
                  · rw [if_pos h5] at hcond
                    rw [Bool.and_eq_true] at hcond
                    obtain ⟨hsrc, hn⟩ := hcond
                    obtain ⟨ob, hob⟩ := Option.isSome_iff_exists.mp (hhs hsrc)
                    obtain ⟨nob, hnob⟩ := Option.isSome_iff_exists.mp (hhn hn).2
                    simp only [step, h1, h2, h3, h4, Bool.false_eq_true, if_false,
                      h5, if_true, hob, hnob]
                    refine ih hasNode hasSrc stk _ hrest ⟨?_, ?_, fun _ => by simp⟩
                    · exact hf2.imp (fun tg nm hp ht =>
                        treeLookup_isSome_insert s.tree s.tnode nm _ (hp ht))
                    · intro hn2
                      exact ⟨(hhn hn2).1, by simp⟩
                  · simp only [step, h1, h2, h3, h4, h5, Bool.false_eq_true, if_false]
                    exact ih hasNode hasSrc stk s hrest ⟨hf2, hhn, hhs⟩
      | cmnt =>
          simp only [nestPreOK] at hpre
          rw [scan]
          simp only [step]
          exact ih hasNode hasSrc stk s hpre ⟨hf2, hhn, hhs⟩
      | rbrc =>
          simp only [nestPreOK] at hpre
          have hlen : stk.length = s.nodes.length := hf2.length_eq
          rw [scan]
          by_cases hl : 1 < s.nodes.length
          · have hlstk : 1 < stk.length := by omega
            rw [if_pos hlstk, Bool.and_eq_true] at hpre
            obtain ⟨htag, hrest⟩ := hpre
            have htag2 : stk.dropLast.getLast? = some Tag.node := by
              exact beq_iff_eq.mp htag
            have hf2d := forall2_dropLast hf2
            obtain ⟨nm, hnm, hP⟩ := forall2_getLast? hf2d htag2
            simp only [step, hl, if_true]
            refine ih hasNode hasSrc stk.dropLast _ hrest ⟨hf2d, ?_, hhs⟩
            intro _
            constructor
            · have hpos : 0 < s.nodes.dropLast.length := by
                simp only [List.length_dropLast]
                omega
              exact List.ne_nil_of_length_pos hpos
            · rw [getLastD_eq_of_getLast? s.nodes.dropLast nm hnm]
              exact hP rfl
          · have hlstk : ¬ 1 < stk.length := by omega
            rw [if_neg hlstk] at hpre
            simp only [step, hl, if_false]
            exact ih hasNode hasSrc stk s hpre ⟨hf2, hhn, hhs⟩

/-- C10 (amended): the line dispatch of `ReadCfg` is total under the
strengthened context discipline `nestPreOK`: every multi-value, disabled-flag
and bare-IP line follows a node-open line, every named-attribute line follows
a source leaf-open line (file/url attribute lines also a node-open line), and
every popping close-brace exposes a node-pushed context entry.  Some inputs
violating the discipline fault: a bare IP literal as the first line indexes
the empty context stack. -/
theorem scan_total_under_context_discipline :
    (∀ lines : List Line, nestPreOK false false [] lines = true →
      (scan initState lines).isSome = true) ∧
    nestPreOK false false [] [Line.ipbh "0.0.0.0"] = false ∧
    scan initState [Line.ipbh "0.0.0.0"] = none := by
  refine ⟨?_, by decide, by rfl⟩
  intro lines hpre
  exact scan_total_aux lines false false [] initState hpre
    ⟨List.Forall₂.nil, fun h => absurd h (by decide), fun h => absurd h (by decide)⟩

theorem scan_total_under_context_discipline_witness :
    (scan initState [Line.node "blacklist", Line.ipbh "0.0.0.0",
      Line.node "domains", Line.mlti true "example.org",
      Line.leaf "source" "mysrc", Line.name "url" "https://x/list",
      Line.rbrc, Line.rbrc]).isSome = true :=
  scan_total_under_context_discipline.1
    [Line.node "blacklist", Line.ipbh "0.0.0.0",
     Line.node "domains", Line.mlti true "example.org",
     Line.leaf "source" "mysrc", Line.name "url" "https://x/list",
     Line.rbrc, Line.rbrc] (by decide)

/-- C10 counterexample: the sequence `node d; leaf source s; node h; };
exclude x` satisfies the claim's stated precondition (each multi-value line
is preceded by a node-open line; there are no named-attribute lines), yet
the scan faults: the close-brace pops to the leaf-pushed context entry
"source", which is not a key of the tree, so the following multi-value line
dereferences an absent node record. -/
theorem scan_precondition_cex :
    origPreOK false false [Line.node "d", Line.leaf "source" "s", Line.node "h",
      Line.rbrc, Line.mlti true "x"] = true ∧
    scan initState [Line.node "d", Line.leaf "source" "s", Line.node "h",
      Line.rbrc, Line.mlti true "x"] = none := by
  constructor
  · decide
  · rfl
